import Mathlib

/-!
Verification of the chunked melt loop of `src/src/Reader.cpp` (`Reader::melt`).

The embedding below translates `Reader::melt` into pure Lean functions.
External collaborators (tokenizer, type-guess helper, collectors) are
modelled through their interfaces as the spec prescribes:

* the tokenizer is a list of tokens consumed from the front; `nextToken()`
  pops the head and returns an END-typed sentinel once the list is empty;
  `progress().first` (the consumed fraction, a C++ `double`) is modelled as
  an exact rational, a function of the number of tokens consumed so far;
* the four collectors all share one capacity (they are resized in lockstep
  by `collectorsResize`); the melt run records every collector operation in
  an event trace (`CEvent`), so capacity bookkeeping and the grow-before-write
  discipline can be stated over the trace;
* `collectorGuess` (repo code outside `src/`) is an opaque parameter of the
  environment, with the locale already applied;
* `R_xlen_t` quantities (`cells`, `n`, `lines`, `first_row`, `last_row`)
  are modelled as `Int`; the magnitudes reachable here are far below 2^63,
  so wrap-around is immaterial and not modelled;
* the progress bar (`progressBar_.show` / `.stop`) is display-only and
  touches no state relevant to the melt output; it is not modelled.
-/

/-- Token type tag, after `TOKEN_STRING` / `TOKEN_MISSING` / `TOKEN_EMPTY` /
`TOKEN_EOF`.  A STRING token carries its text. -/
inductive Ttype where
  | tstring : String → Ttype
  | tmissing : Ttype
  | tempty : Ttype
  | teof : Ttype
deriving DecidableEq

/-- One lexical token: a type tag plus zero-based row and column. -/
structure Token where
  ty : Ttype
  row : Nat
  col : Nat
deriving DecidableEq

/-- The END-typed token returned by `nextToken()` once the stream is
exhausted (its row/col are never inspected by the melt loop). -/
def eofToken : Token := ⟨Ttype.teof, 0, 0⟩

/-- Modelled from the spec: the default-constructed pending token `t_`
before any fetch (`Token.h` is not under `src/`).  Per the spec's lifecycle
("the last token fetched but not yet written (if any)") and its worked
examples, the first invocation does not take the END early exit, so the
default token is not the END sentinel; `Token.h` default-constructs it as
an EMPTY token at (0,0). -/
def initToken : Token := ⟨Ttype.tempty, 0, 0⟩

/-- One output row of the melted table: the four values written at one
index — `row` (1-based), `col` (1-based), `data_type`, and `value`
(collector 3 receives the token itself, line 123 of Reader.cpp). -/
structure Cell where
  rowOut : Nat
  colOut : Nat
  dataType : String
  value : Token
deriving DecidableEq

/-- The four `setValue` calls of one loop iteration (Reader.cpp lines
121-140), bundled: collector 0 gets `t_.row() + 1`, collector 1 gets
`t_.col() + 1`, collector 3 gets the token, collector 2 gets the type tag
from the `switch`.  The `TOKEN_EOF` switch arm raises
`cpp11::stop("Invalid token")`; it is unreachable because the loop guard
has already excluded EOF, and is rendered here by the marker "invalid". -/
def mkCell (guess : String → String) (t : Token) : Cell :=
  { rowOut := t.row + 1
    colOut := t.col + 1
    dataType :=
      match t.ty with
      | Ttype.tstring s => guess s
      | Ttype.tmissing => "missing"
      | Ttype.tempty => "empty"
      | Ttype.teof => "invalid"
    value := t }

/-- The external environment of one melt run: the type-guess helper (with
the locale already applied) and the tokenizer's progress fraction as a
function of the number of tokens consumed so far. -/
structure Env where
  guess : String → String
  prog : Nat → ℚ

/-- Truncation of a rational toward zero, the semantics of the C++
`double` → `R_xlen_t` cast on line 117 of Reader.cpp. -/
def truncQ (q : ℚ) : Int := if q < 0 then -(⌊-q⌋) else ⌊q⌋

/-- The capacity re-estimate of line 117:
`n = (cells / tokenizer_->progress().first) * 1.1;`, with the `double`
arithmetic modelled as exact rational arithmetic.  The exact rational
`(cells / p) * (11/10)` equals `(cells * 11 * p.den) / (10 * p.num)`, and
the `double` → `R_xlen_t` cast truncates toward zero, which is `Int.tdiv`;
the definition uses the integer form (so that concrete runs evaluate), and
`newCap_spec` proves it equal to `truncQ ((cells / p) * (11/10))`. -/
def newCap (cells : Int) (p : ℚ) : Int :=
  Int.tdiv (cells * 11 * (p.den : Int)) (10 * p.num)

/-- An operation performed on the collectors (all four move in lockstep):
`resize k` is a `collectorsResize(k)` outside the loop; `grow c m k` is the
mid-loop re-estimate block of lines 115-119 (fired with `cells = c`, after
`m` tokens consumed, resizing to `k`); `write idx cell` is the group of
four `setValue(idx, _)` calls of lines 121-140. -/
inductive CEvent where
  | resize : Int → CEvent
  | grow : Int → Nat → Int → CEvent
  | write : Int → Cell → CEvent
deriving DecidableEq

/-- Everything the `while` loop of lines 103-144 produces and leaves
behind: the collector-event trace, the output rows in order, and the final
values of `cells`, `n`, `last_row`, the pending token `t_`, the remaining
token stream, and the consumed count. -/
structure LoopOut where
  events : List CEvent
  rows : List Cell
  cells : Int
  n : Int
  lastRow : Int
  pending : Token
  rest : List Token
  consumed : Nat
deriving DecidableEq

/-- The capacity in force after the growth check of Reader.cpp lines
115-119 ran with incremented cell count `cells + 1`: if `cells >= n` the
re-estimate of line 117 replaces `n`, otherwise `n` is unchanged. -/
def stepN (cells n : Int) (p : ℚ) : Int :=
  if n ≤ cells + 1 then newCap (cells + 1) p else n

/-- The collector events of the growth check of lines 115-119: one `grow`
event when it fires (`cells >= n`), none otherwise. -/
def stepEvs (cells n : Int) (consumed : Nat) (p : ℚ) : List CEvent :=
  if n ≤ cells + 1 then [CEvent.grow (cells + 1) consumed (newCap (cells + 1) p)] else []

/-- The `while` loop of Reader.cpp lines 103-144.  One iteration:
exit if the pending token is EOF; `++cells`; (progress display, no state);
the chunk-boundary check of lines 110-113 (`--cells; break;`); the growth
check of lines 115-119; the four writes at index `cells - 1`;
`last_row = t_.row()`; fetch the next token. -/
def meltLoop (env : Env) (lines firstRow : Int) (t : Token) (stream : List Token)
    (cells n lastRow : Int) (consumed : Nat) : LoopOut :=
    if t.ty = Ttype.teof then
      ⟨[], [], cells, n, lastRow, t, stream, consumed⟩
    else if 0 ≤ lines ∧ lines ≤ (t.row : Int) - firstRow then
      ⟨[], [], cells + 1 - 1, n, lastRow, t, stream, consumed⟩
    else
      match stream with
      | [] =>
        ⟨stepEvs cells n consumed (env.prog consumed)
            ++ [CEvent.write (cells + 1 - 1) (mkCell env.guess t)],
          [mkCell env.guess t], cells + 1, stepN cells n (env.prog consumed),
          (t.row : Int), eofToken, [], consumed⟩
      | t2 :: rest2 =>
        let r := meltLoop env lines firstRow t2 rest2 (cells + 1)
          (stepN cells n (env.prog consumed)) (t.row : Int) (consumed + 1)
        ⟨stepEvs cells n consumed (env.prog consumed)
            ++ [CEvent.write (cells + 1 - 1) (mkCell env.guess t)] ++ r.events,
          mkCell env.guess t :: r.rows, r.cells, r.n, r.lastRow, r.pending, r.rest, r.consumed⟩

/-- The persistent `Reader` state across melt invocations: the pending
token `t_`, the `begun_` flag, the not-yet-fetched remainder of the token
stream, and the number of tokens consumed so far (the tokenizer cursor). -/
structure RState where
  t : Token
  begun : Bool
  stream : List Token
  consumed : Nat
deriving DecidableEq

/-- The state of a freshly constructed Reader over a given token stream. -/
def initState (stream : List Token) : RState :=
  ⟨initToken, false, stream, 0⟩

/-- Result of one `Reader::melt(locale_, lines)` invocation: the returned
value (line 160 / line 84), the post-invocation Reader state, the
collector-event trace, the output rows, and the loop's final `n` (the
pre-trim capacity; 0 and unused on the line 83-85 early exit, which
touches no collector). -/
structure MeltOut where
  ret : Int
  state : RState
  events : List CEvent
  rows : List Cell
  loopN : Int
deriving DecidableEq

/-- `Reader::melt` (Reader.cpp lines 81-161).  Early-exits with -1 when the
pending token is already EOF; otherwise resizes the collectors to the
initial estimate `n`, fetches the first token (first invocation only,
with `first_row = 0`) or re-bases `first_row` on the pending token, runs
the loop, and applies the final trim of lines 154-158. -/
def melt (env : Env) (lines : Int) (s : RState) : MeltOut :=
  if s.t.ty = Ttype.teof then
    ⟨-1, s, [], [], 0⟩
  else
    let n0 : Int := if lines < 0 then 10000 else lines * 10
    let r :=
      if s.begun then
        meltLoop env lines ((s.t.row : Int)) s.t s.stream 0 n0 (-1) s.consumed
      else
        match s.stream with
        | [] => meltLoop env lines 0 eofToken [] 0 n0 (-1) s.consumed
        | t :: ts => meltLoop env lines 0 t ts 0 n0 (-1) (s.consumed + 1)
    let finEvs : List CEvent :=
      if r.lastRow = -1 then [CEvent.resize 0]
      else if r.cells < r.n - 1 then [CEvent.resize r.cells] else []
    ⟨r.cells - 1, ⟨r.pending, true, r.rest, r.consumed⟩,
      CEvent.resize n0 :: (r.events ++ finEvs), r.rows, r.n⟩

/-- The chunked driver of the spec's caller contract: invoke
`melt(locale, lines)` repeatedly until the end-of-input signal (-1) is
returned, concatenating the produced rows and event traces.  `fuel` bounds
the number of invocations (any fuel above the stream length is enough). -/
def meltAll (env : Env) (lines : Int) : Nat → RState → List Cell × List CEvent
  | 0, _ => ([], [])
  | fuel + 1, s =>
    let r := melt env lines s
    if r.ret = -1 then (r.rows, r.events)
    else
      let next := meltAll env lines fuel r.state
      (r.rows ++ next.1, r.events ++ next.2)

/-- Collector capacity after replaying an event trace from a starting
capacity. -/
def capAfter : Int → List CEvent → Int
  | c, [] => c
  | _, CEvent.resize k :: evs => capAfter k evs
  | _, CEvent.grow _ _ k :: evs => capAfter k evs
  | c, CEvent.write _ _ :: evs => capAfter c evs

/-- Monotone-capacity check over a trace: every capacity change moves the
capacity up (never shrinks). -/
def capsMonoB : Int → List CEvent → Bool
  | _, [] => true
  | cap, CEvent.resize k :: evs => decide (cap ≤ k) && capsMonoB k evs
  | cap, CEvent.grow _ _ k :: evs => decide (cap ≤ k) && capsMonoB k evs
  | cap, CEvent.write _ _ :: evs => capsMonoB cap evs

/-- Grow-before-write check over a trace: every write lands at an index
that is in range for the capacity in force at that moment. -/
def writesInBoundsB : Int → List CEvent → Bool
  | _, [] => true
  | _, CEvent.resize k :: evs => writesInBoundsB k evs
  | _, CEvent.grow _ _ k :: evs => writesInBoundsB k evs
  | cap, CEvent.write idx _ :: evs =>
      (decide (0 ≤ idx) && decide (idx < cap)) && writesInBoundsB cap evs

/-- The stopping condition of one loop iteration on pending token `x`:
either `x` is EOF (line 103) or the chunk-boundary check of line 110
fires. -/
def stopsB (lines firstRow : Int) (x : Token) : Bool :=
  decide (x.ty = Ttype.teof) ||
    (decide (0 ≤ lines) && decide (lines ≤ (x.row : Int) - firstRow))

/-- Head of a token list, defaulting to the EOF sentinel — the pending
token left behind after the loop ran off a suffix. -/
def headOr : List Token → Token
  | [] => eofToken
  | x :: _ => x

/-- The rows of a whole-stream melt: every token up to the first EOF-typed
one, classified by `mkCell`. -/
def emitAll (guess : String → String) (ts : List Token) : List Cell :=
  (ts.takeWhile fun x => !(decide (x.ty = Ttype.teof))).map (mkCell guess)

/-- Invariant carried across melt invocations: once `begun_` is set, either
at least one token has been consumed by the tokenizer, or the pending token
is the END sentinel (reached only by starting on an empty stream). -/
def SInv (s : RState) : Prop := s.begun = true → 1 ≤ s.consumed ∨ s.t.ty = Ttype.teof

/-- Modelled from the spec: the type-guess helper `collectorGuess` (repo
code not under `src/`, consumed by line 129 of Reader.cpp) returns a
guessed semantic type tag for a string's text under the given locale; per
the spec's data model the literal markers "missing" and "empty" are
reserved for MISSING/EMPTY tokens and are never produced by the guess. -/
def GuessSpec (g : String → String) : Prop :=
  ∀ str : String, ¬ g str = "missing" ∧ ¬ g str = "empty"

/-- Modelled from the spec: the tokenizer (repo code not under `src/`)
reports progress as the fraction of source consumed; fetching a token
consumes source input, so once at least one token has been fetched the
reported fraction is strictly positive. -/
def ProgressPositive (prog : Nat → ℚ) : Prop := ∀ m : Nat, 1 ≤ m → 0 < prog m

/-- A concrete type-guess for closed runs: everything guesses "character". -/
def guess0 : String → String := fun _ => "character"

/-- A concrete environment for closed runs: constant guess, progress
fraction constantly 1. -/
def env0 : Env := ⟨guess0, fun _ => 1⟩

/-- A MISSING token at the given zero-based position. -/
def tokM (r c : Nat) : Token := ⟨Ttype.tmissing, r, c⟩

/-- One token whose row is 1 (a tokenizer numbering rows from elsewhere
than 0, e.g. after skipped leading rows). -/
def str1 : List Token := [tokM 1 0]

/-- Two rows of one cell each, rows numbered from 0. -/
def str2 : List Token := [tokM 0 0, tokM 1 0]

/-- Nine cells in row 0 followed by one cell in row 1. -/
def str9 : List Token :=
  [tokM 0 0, tokM 0 1, tokM 0 2, tokM 0 3, tokM 0 4, tokM 0 5, tokM 0 6,
   tokM 0 7, tokM 0 8, tokM 1 0]

/-- Eleven cells in row 0: with `lines = 1` the initial capacity is 10, so
the mid-loop growth check fires at the tenth write. -/
def str11 : List Token :=
  [tokM 0 0, tokM 0 1, tokM 0 2, tokM 0 3, tokM 0 4, tokM 0 5, tokM 0 6,
   tokM 0 7, tokM 0 8, tokM 0 9, tokM 0 10]

/-- The output row produced for `tokM 0 0` under `guess0`. -/
def cell5 : Cell := ⟨1, 1, "missing", tokM 0 0⟩

theorem meltLoop_eof (env : Env) (lines firstRow : Int) (t : Token) (stream : List Token)
    (cells n lastRow : Int) (consumed : Nat) (ht : t.ty = Ttype.teof) :
    meltLoop env lines firstRow t stream cells n lastRow consumed
      = ⟨[], [], cells, n, lastRow, t, stream, consumed⟩ := by
  rw [meltLoop.eq_def, if_pos ht]

theorem meltLoop_break (env : Env) (lines firstRow : Int) (t : Token) (stream : List Token)
    (cells n lastRow : Int) (consumed : Nat) (ht : ¬ t.ty = Ttype.teof)
    (hb : 0 ≤ lines ∧ lines ≤ (t.row : Int) - firstRow) :
    meltLoop env lines firstRow t stream cells n lastRow consumed
      = ⟨[], [], cells, n, lastRow, t, stream, consumed⟩ := by
  rw [meltLoop.eq_def, if_neg ht, if_pos hb]; norm_num

theorem meltLoop_last (env : Env) (lines firstRow : Int) (t : Token)
    (cells n lastRow : Int) (consumed : Nat) (ht : ¬ t.ty = Ttype.teof)
    (hb : ¬ (0 ≤ lines ∧ lines ≤ (t.row : Int) - firstRow)) :
    meltLoop env lines firstRow t [] cells n lastRow consumed
      = ⟨stepEvs cells n consumed (env.prog consumed)
            ++ [CEvent.write (cells + 1 - 1) (mkCell env.guess t)],
          [mkCell env.guess t], cells + 1, stepN cells n (env.prog consumed),
          (t.row : Int), eofToken, [], consumed⟩ := by
  rw [meltLoop, if_neg ht, if_neg hb]

theorem meltLoop_cons (env : Env) (lines firstRow : Int) (t t2 : Token) (rest2 : List Token)
    (cells n lastRow : Int) (consumed : Nat) (ht : ¬ t.ty = Ttype.teof)
    (hb : ¬ (0 ≤ lines ∧ lines ≤ (t.row : Int) - firstRow)) :
    meltLoop env lines firstRow t (t2 :: rest2) cells n lastRow consumed
      = ⟨stepEvs cells n consumed (env.prog consumed)
            ++ [CEvent.write (cells + 1 - 1) (mkCell env.guess t)]
            ++ (meltLoop env lines firstRow t2 rest2 (cells + 1)
                (stepN cells n (env.prog consumed)) (t.row : Int) (consumed + 1)).events,
          mkCell env.guess t
            :: (meltLoop env lines firstRow t2 rest2 (cells + 1)
                (stepN cells n (env.prog consumed)) (t.row : Int) (consumed + 1)).rows,
          (meltLoop env lines firstRow t2 rest2 (cells + 1)
                (stepN cells n (env.prog consumed)) (t.row : Int) (consumed + 1)).cells,
          (meltLoop env lines firstRow t2 rest2 (cells + 1)
                (stepN cells n (env.prog consumed)) (t.row : Int) (consumed + 1)).n,
          (meltLoop env lines firstRow t2 rest2 (cells + 1)
                (stepN cells n (env.prog consumed)) (t.row : Int) (consumed + 1)).lastRow,
          (meltLoop env lines firstRow t2 rest2 (cells + 1)
                (stepN cells n (env.prog consumed)) (t.row : Int) (consumed + 1)).pending,
          (meltLoop env lines firstRow t2 rest2 (cells + 1)
                (stepN cells n (env.prog consumed)) (t.row : Int) (consumed + 1)).rest,
          (meltLoop env lines firstRow t2 rest2 (cells + 1)
                (stepN cells n (env.prog consumed)) (t.row : Int) (consumed + 1)).consumed⟩ := by
  rw [meltLoop, if_neg ht, if_neg hb]

theorem stopsB_true_of_eof (lines firstRow : Int) (x : Token) (hx : x.ty = Ttype.teof) :
    stopsB lines firstRow x = true := by
  simp [stopsB, hx]

theorem stopsB_true_of_bound (lines firstRow : Int) (x : Token)
    (hb : 0 ≤ lines ∧ lines ≤ (x.row : Int) - firstRow) :
    stopsB lines firstRow x = true := by
  simp [stopsB, hb.1, hb.2]

theorem stopsB_false (lines firstRow : Int) (x : Token) (hx : ¬ x.ty = Ttype.teof)
    (hb : ¬ (0 ≤ lines ∧ lines ≤ (x.row : Int) - firstRow)) :
    stopsB lines firstRow x = false := by
  rcases not_and_or.mp hb with h | h
  · simp [stopsB, hx, decide_eq_false h]
  · simp [stopsB, hx, decide_eq_false h]

theorem notStop_app (lines firstRow : Int) (x : Token) (hx : ¬ x.ty = Ttype.teof)
    (hb : ¬ (0 ≤ lines ∧ lines ≤ (x.row : Int) - firstRow)) :
    (fun y => !stopsB lines firstRow y) x = true := by
  simp [stopsB_false lines firstRow x hx hb]

theorem meltLoop_spec (env : Env) (lines firstRow : Int) (stream : List Token) :
    ∀ (t : Token) (cells n lastRow : Int) (consumed : Nat),
      (meltLoop env lines firstRow t stream cells n lastRow consumed).rows
          = ((t :: stream).takeWhile fun x => !stopsB lines firstRow x).map (mkCell env.guess)
        ∧ (meltLoop env lines firstRow t stream cells n lastRow consumed).cells
          = cells + ((t :: stream).takeWhile fun x => !stopsB lines firstRow x).length
        ∧ (meltLoop env lines firstRow t stream cells n lastRow consumed).pending
          = headOr ((t :: stream).dropWhile fun x => !stopsB lines firstRow x)
        ∧ (meltLoop env lines firstRow t stream cells n lastRow consumed).rest
          = ((t :: stream).dropWhile fun x => !stopsB lines firstRow x).tail := by
  induction stream with
  | nil =>
    intro t cells n lastRow consumed
    by_cases ht : t.ty = Ttype.teof
    · rw [meltLoop_eof env lines firstRow t [] cells n lastRow consumed ht]
      simp [List.takeWhile, List.dropWhile, stopsB_true_of_eof lines firstRow t ht, headOr]
    · by_cases hb : 0 ≤ lines ∧ lines ≤ (t.row : Int) - firstRow
      · rw [meltLoop_break env lines firstRow t [] cells n lastRow consumed ht hb]
        simp [List.takeWhile, List.dropWhile, stopsB_true_of_bound lines firstRow t hb, headOr]
      · rw [meltLoop_last env lines firstRow t cells n lastRow consumed ht hb]
        simp [List.takeWhile, List.dropWhile, stopsB_false lines firstRow t ht hb, headOr]
  | cons t2 rest2 ih =>
    intro t cells n lastRow consumed
    by_cases ht : t.ty = Ttype.teof
    · rw [meltLoop_eof env lines firstRow t (t2 :: rest2) cells n lastRow consumed ht]
      simp [List.takeWhile, List.dropWhile, stopsB_true_of_eof lines firstRow t ht, headOr]
    · by_cases hb : 0 ≤ lines ∧ lines ≤ (t.row : Int) - firstRow
      · rw [meltLoop_break env lines firstRow t (t2 :: rest2) cells n lastRow consumed ht hb]
        simp [List.takeWhile, List.dropWhile, stopsB_true_of_bound lines firstRow t hb, headOr]
      · rw [meltLoop_cons env lines firstRow t t2 rest2 cells n lastRow consumed ht hb]
        have h2 := ih t2 (cells + 1) (stepN cells n (env.prog consumed)) ((t.row : Int))
          (consumed + 1)
        rw [@List.takeWhile_cons_of_pos Token (fun x => !stopsB lines firstRow x) t
            (t2 :: rest2) (notStop_app lines firstRow t ht hb),
          @List.dropWhile_cons_of_pos Token (fun x => !stopsB lines firstRow x) t
            (t2 :: rest2) (notStop_app lines firstRow t ht hb)]
        refine ⟨?_, ?_, h2.2.2.1, h2.2.2.2⟩
        · simp only [List.map_cons]
          rw [h2.1]
        · rw [h2.2.1]
          simp only [List.length_cons]
          push_cast
          ring

theorem capAfter_append (a b : List CEvent) : ∀ c : Int,
    capAfter c (a ++ b) = capAfter (capAfter c a) b := by
  induction a with
  | nil => intro c; rfl
  | cons e a ih =>
    intro c
    cases e with
    | resize k => simp [capAfter, ih]
    | grow c2 m k => simp [capAfter, ih]
    | write idx cell => simp [capAfter, ih]

theorem capsMonoB_append (a b : List CEvent) : ∀ c : Int,
    capsMonoB c (a ++ b) = (capsMonoB c a && capsMonoB (capAfter c a) b) := by
  induction a with
  | nil => intro c; rfl
  | cons e a ih =>
    intro c
    cases e with
    | resize k => simp [capsMonoB, capAfter, ih, Bool.and_assoc]
    | grow c2 m k => simp [capsMonoB, capAfter, ih, Bool.and_assoc]
    | write idx cell => simp [capsMonoB, capAfter, ih]

theorem writesInBoundsB_append (a b : List CEvent) : ∀ c : Int,
    writesInBoundsB c (a ++ b)
      = (writesInBoundsB c a && writesInBoundsB (capAfter c a) b) := by
  induction a with
  | nil => intro c; rfl
  | cons e a ih =>
    intro c
    cases e with
    | resize k => simp [writesInBoundsB, capAfter, ih]
    | grow c2 m k => simp [writesInBoundsB, capAfter, ih]
    | write idx cell => simp [writesInBoundsB, capAfter, ih, Bool.and_assoc]

theorem num_pos_of_pos (p : ℚ) (hp : 0 < p) : 0 < p.num := Rat.num_pos.mpr hp

theorem num_le_den_of_le_one (p : ℚ) (_hp0 : 0 < p) (hp1 : p ≤ 1) :
    p.num ≤ (p.den : Int) := by
  have hd : (0 : ℚ) < (p.den : ℚ) := by exact_mod_cast p.den_pos
  have h1 : (p.num : ℚ) / (p.den : ℚ) ≤ 1 := by
    rw [Rat.num_div_den p]
    exact hp1
  have h2 : (p.num : ℚ) ≤ (p.den : ℚ) := by
    rw [div_le_one hd] at h1
    exact h1
  exact_mod_cast h2

/-- The integer form of the line-117 re-estimate agrees with the exact
rational formula `(cells / p) * 1.1` truncated toward zero. -/
theorem newCap_spec (c : Int) (p : ℚ) (hc : 0 ≤ c) (hp : 0 < p) :
    newCap c p = truncQ (((c : ℚ) / p) * (11 / 10)) := by
  have hnum : 0 < p.num := num_pos_of_pos p hp
  have hden : 0 < (p.den : Int) := by exact_mod_cast p.den_pos
  have ha : 0 ≤ c * 11 * (p.den : Int) := by positivity
  have hb : (0 : Int) < 10 * p.num := by positivity
  have hdQ : ((p.den : Int) : ℚ) ≠ 0 := by
    exact_mod_cast (by omega : ¬ (p.den : Int) = 0)
  have hnQ : ((p.num : Int) : ℚ) ≠ 0 := by
    exact_mod_cast (by omega : ¬ p.num = 0)
  have key : (p.den : ℚ) * p = (p.num : ℚ) := by
    have hnd := Rat.num_div_den p
    have hdQ2 : ((p.den : ℕ) : ℚ) ≠ 0 := by exact_mod_cast hdQ
    calc (p.den : ℚ) * p = (p.den : ℚ) * ((p.num : ℚ) / (p.den : ℚ)) := by rw [hnd]
      _ = (p.num : ℚ) := by field_simp
  have hpne : p ≠ 0 := ne_of_gt hp
  have hq : ((c : ℚ) / p) * (11 / 10)
      = ((c * 11 * (p.den : Int) : Int) : ℚ) / ((10 * p.num : Int) : ℚ) := by
    rw [div_mul_div_comm, div_eq_div_iff (by positivity) ?hB]
    case hB =>
      push_cast
      intro hzero
      have : (10 : ℚ) * (p.num : ℚ) = 0 := by exact_mod_cast hzero
      have : ((p.num : Int) : ℚ) = 0 := by linarith
      exact hnQ this
    push_cast
    linear_combination (-(110 : ℚ) * c) * key
  have hqnn : ¬ (((c : ℚ) / p) * (11 / 10) < 0) := by
    push_neg
    have hcq : (0 : ℚ) ≤ (c : ℚ) := by exact_mod_cast hc
    positivity
  rw [truncQ, if_neg hqnn, hq]
  have hbnat : ((10 * p.num : Int).toNat : Int) = 10 * p.num := Int.toNat_of_nonneg hb.le
  have hfl : (((c * 11 * (p.den : Int) : Int) : ℚ) / (((10 * p.num : Int).toNat : ℕ) : ℚ))
      = ((c * 11 * (p.den : Int) : Int) : ℚ) / ((10 * p.num : Int) : ℚ) := by
    congr 1
    exact_mod_cast congrArg (fun z : Int => (z : ℚ)) hbnat
  rw [← hfl, Rat.floor_intCast_div_natCast, hbnat, newCap,
    Int.tdiv_eq_ediv ha (by omega)]

theorem newCap_ge (c : Int) (p : ℚ) (hc : 0 ≤ c) (hp0 : 0 < p) (hp1 : p ≤ 1) :
    c ≤ newCap c p := by
  have hnum : 0 < p.num := num_pos_of_pos p hp0
  have hnd : p.num ≤ (p.den : Int) := num_le_den_of_le_one p hp0 hp1
  have hden : 0 < (p.den : Int) := by exact_mod_cast p.den_pos
  have ha : 0 ≤ c * 11 * (p.den : Int) := by positivity
  have hb : (0 : Int) < 10 * p.num := by positivity
  rw [newCap, Int.tdiv_eq_ediv ha (by omega), Int.le_ediv_iff_mul_le hb]
  nlinarith

theorem stepN_ge_cells (cells n : Int) (p : ℚ) (hc : 0 ≤ cells) (hp0 : 0 < p)
    (hp1 : p ≤ 1) : cells + 1 ≤ stepN cells n p := by
  rw [stepN]
  by_cases hg : n ≤ cells + 1
  · rw [if_pos hg]
    exact newCap_ge (cells + 1) p (by omega) hp0 hp1
  · rw [if_neg hg]
    omega

theorem stepN_ge_n (cells n : Int) (p : ℚ) (hc : 0 ≤ cells) (hp0 : 0 < p)
    (hp1 : p ≤ 1) : n ≤ stepN cells n p := by
  rw [stepN]
  by_cases hg : n ≤ cells + 1
  · rw [if_pos hg]
    exact le_trans hg (newCap_ge (cells + 1) p (by omega) hp0 hp1)
  · rw [if_neg hg]

/-- Numeric loop invariant under the tokenizer progress contract: the cell
counter stays within the capacity, the capacity never decreases, every
capacity change in the trace is monotone, and every write is in range. -/
theorem meltLoop_inv (env : Env) (lines firstRow : Int) (stream : List Token)
    (hp : ∀ m : Nat, 0 < env.prog m ∧ env.prog m ≤ 1) :
    ∀ (t : Token) (cells n lastRow : Int) (consumed : Nat),
      0 ≤ cells → cells ≤ n →
      0 ≤ (meltLoop env lines firstRow t stream cells n lastRow consumed).cells
        ∧ (meltLoop env lines firstRow t stream cells n lastRow consumed).cells
            ≤ (meltLoop env lines firstRow t stream cells n lastRow consumed).n
        ∧ n ≤ (meltLoop env lines firstRow t stream cells n lastRow consumed).n
        ∧ capsMonoB n (meltLoop env lines firstRow t stream cells n lastRow consumed).events
            = true
        ∧ writesInBoundsB n
            (meltLoop env lines firstRow t stream cells n lastRow consumed).events = true := by
  induction stream with
  | nil =>
    intro t cells n lastRow consumed h0 hcn
    by_cases ht : t.ty = Ttype.teof
    · rw [meltLoop_eof env lines firstRow t [] cells n lastRow consumed ht]
      simp [capsMonoB, writesInBoundsB, h0, hcn]
    · by_cases hb : 0 ≤ lines ∧ lines ≤ (t.row : Int) - firstRow
      · rw [meltLoop_break env lines firstRow t [] cells n lastRow consumed ht hb]
        simp [capsMonoB, writesInBoundsB, h0, hcn]
      · rw [meltLoop_last env lines firstRow t cells n lastRow consumed ht hb]
        have hge := stepN_ge_cells cells n (env.prog consumed) h0
          (hp consumed).1 (hp consumed).2
        have hgn := stepN_ge_n cells n (env.prog consumed) h0
          (hp consumed).1 (hp consumed).2
        refine ⟨by simp; omega, by simpa using hge, by simpa using hgn, ?_, ?_⟩
        · by_cases hg : n ≤ cells + 1
          · simp only [stepEvs, stepN, if_pos hg] at *
            simp [capsMonoB_append, capsMonoB, capAfter]
            omega
          · simp only [stepEvs, stepN, if_neg hg] at *
            simp [capsMonoB_append, capsMonoB, capAfter]
        · by_cases hg : n ≤ cells + 1
          · simp only [stepEvs, stepN, if_pos hg] at *
            simp [writesInBoundsB_append, writesInBoundsB, capAfter]
            omega
          · simp only [stepEvs, stepN, if_neg hg] at *
            simp [writesInBoundsB_append, writesInBoundsB, capAfter]
            omega
  | cons t2 rest2 ih =>
    intro t cells n lastRow consumed h0 hcn
    by_cases ht : t.ty = Ttype.teof
    · rw [meltLoop_eof env lines firstRow t (t2 :: rest2) cells n lastRow consumed ht]
      simp [capsMonoB, writesInBoundsB, h0, hcn]
    · by_cases hb : 0 ≤ lines ∧ lines ≤ (t.row : Int) - firstRow
      · rw [meltLoop_break env lines firstRow t (t2 :: rest2) cells n lastRow consumed ht hb]
        simp [capsMonoB, writesInBoundsB, h0, hcn]
      · rw [meltLoop_cons env lines firstRow t t2 rest2 cells n lastRow consumed ht hb]
        have hge := stepN_ge_cells cells n (env.prog consumed) h0
          (hp consumed).1 (hp consumed).2
        have hgn := stepN_ge_n cells n (env.prog consumed) h0
          (hp consumed).1 (hp consumed).2
        have h2 := ih t2 (cells + 1) (stepN cells n (env.prog consumed)) ((t.row : Int))
          (consumed + 1) (by omega) hge
        refine ⟨h2.1, h2.2.1, le_trans hgn h2.2.2.1, ?_, ?_⟩
        · by_cases hg : n ≤ cells + 1
          · simp only [stepEvs, stepN, if_pos hg] at *
            simp [capsMonoB_append, capsMonoB, capAfter, capAfter_append]
            exact ⟨by omega, h2.2.2.2.1⟩
          · simp only [stepEvs, stepN, if_neg hg] at *
            simp [capsMonoB_append, capsMonoB, capAfter, capAfter_append]
            exact h2.2.2.2.1
        · by_cases hg : n ≤ cells + 1
          · simp only [stepEvs, stepN, if_pos hg] at *
            simp [writesInBoundsB_append, writesInBoundsB, capAfter, capAfter_append]
            exact ⟨⟨h0, by omega⟩, h2.2.2.2.2⟩
          · simp only [stepEvs, stepN, if_neg hg] at *
            simp [writesInBoundsB_append, writesInBoundsB, capAfter, capAfter_append]
            exact ⟨⟨h0, by omega⟩, h2.2.2.2.2⟩

/-- Trace bookkeeping of the loop, with no numeric preconditions: replaying
the events from the entry capacity lands on the exit capacity; the consumed
count never decreases; every `grow` event records a consumed count at least
the entry one and carries exactly the line-117 re-estimate; and `last_row`
is untouched iff no row was written (otherwise it is a token row, hence
nonnegative). -/
theorem meltLoop_trace (env : Env) (lines firstRow : Int) (stream : List Token) :
    ∀ (t : Token) (cells n lastRow : Int) (consumed : Nat),
      capAfter n (meltLoop env lines firstRow t stream cells n lastRow consumed).events
          = (meltLoop env lines firstRow t stream cells n lastRow consumed).n
        ∧ consumed ≤ (meltLoop env lines firstRow t stream cells n lastRow consumed).consumed
        ∧ (∀ c2 m k, CEvent.grow c2 m k
              ∈ (meltLoop env lines firstRow t stream cells n lastRow consumed).events →
            consumed ≤ m ∧ k = newCap c2 (env.prog m))
        ∧ ((meltLoop env lines firstRow t stream cells n lastRow consumed).rows = []
            → (meltLoop env lines firstRow t stream cells n lastRow consumed).lastRow
                = lastRow)
        ∧ (¬ (meltLoop env lines firstRow t stream cells n lastRow consumed).rows = []
            → 0 ≤ (meltLoop env lines firstRow t stream cells n lastRow consumed).lastRow) := by
  induction stream with
  | nil =>
    intro t cells n lastRow consumed
    by_cases ht : t.ty = Ttype.teof
    · rw [meltLoop_eof env lines firstRow t [] cells n lastRow consumed ht]
      simp [capAfter]
    · by_cases hb : 0 ≤ lines ∧ lines ≤ (t.row : Int) - firstRow
      · rw [meltLoop_break env lines firstRow t [] cells n lastRow consumed ht hb]
        simp [capAfter]
      · rw [meltLoop_last env lines firstRow t cells n lastRow consumed ht hb]
        by_cases hg : n ≤ cells + 1
        · simp only [stepEvs, stepN, if_pos hg]
          simp [capAfter_append, capAfter]
          rintro c2 m k rfl rfl rfl
          exact ⟨le_refl _, rfl⟩
        · simp only [stepEvs, stepN, if_neg hg]
          simp [capAfter_append, capAfter]
  | cons t2 rest2 ih =>
    intro t cells n lastRow consumed
    by_cases ht : t.ty = Ttype.teof
    · rw [meltLoop_eof env lines firstRow t (t2 :: rest2) cells n lastRow consumed ht]
      simp [capAfter]
    · by_cases hb : 0 ≤ lines ∧ lines ≤ (t.row : Int) - firstRow
      · rw [meltLoop_break env lines firstRow t (t2 :: rest2) cells n lastRow consumed ht hb]
        simp [capAfter]
      · rw [meltLoop_cons env lines firstRow t t2 rest2 cells n lastRow consumed ht hb]
        have h2 := ih t2 (cells + 1) (stepN cells n (env.prog consumed)) ((t.row : Int))
          (consumed + 1)
        refine ⟨?_, ?_, ?_, ?_, ?_⟩
        · rw [capAfter_append, capAfter_append]
          by_cases hg : n ≤ cells + 1
          · simp only [stepEvs, stepN, if_pos hg] at h2 ⊢
            simpa [capAfter] using h2.1
          · simp only [stepEvs, stepN, if_neg hg] at h2 ⊢
            simpa [capAfter] using h2.1
        · simp only []
          exact le_trans (Nat.le_succ consumed) h2.2.1
        · intro c2 m k hmem
          simp only [List.mem_append] at hmem
          rcases hmem with (hmem | hmem) | hmem
          · by_cases hg : n ≤ cells + 1
            · simp only [stepEvs, if_pos hg, List.mem_singleton] at hmem
              cases hmem
              exact ⟨le_refl _, rfl⟩
            · simp only [stepEvs, if_neg hg, List.not_mem_nil] at hmem
          · simp at hmem
          · have := h2.2.2.1 c2 m k hmem
            exact ⟨by omega, this.2⟩
        · intro hrows
          simp at hrows
        · intro hrows
          simp only []
          rcases h2.2.2.2 with ⟨he, hne⟩
          by_cases hr2 : (meltLoop env lines firstRow t2 rest2 (cells + 1)
              (stepN cells n (env.prog consumed)) ((t.row : Int)) (consumed + 1)).rows = []
          · rw [he hr2]
            exact Int.natCast_nonneg t.row
          · exact hne hr2

theorem takeWhile_glue (P Q : Token → Bool) (h : ∀ x, Q x = true → P x = true) :
    ∀ l : List Token, l.takeWhile P = l.takeWhile Q ++ (l.dropWhile Q).takeWhile P := by
  intro l
  induction l with
  | nil => rfl
  | cons a l ih =>
    by_cases hq : Q a = true
    · rw [@List.takeWhile_cons_of_pos Token Q a l hq,
        @List.dropWhile_cons_of_pos Token Q a l hq,
        @List.takeWhile_cons_of_pos Token P a l (h a hq),
        List.cons_append, ih]
    · have hq2 : ¬ Q a = true := hq
      rw [@List.takeWhile_cons_of_neg Token Q a l hq2,
        @List.dropWhile_cons_of_neg Token Q a l hq2, List.nil_append]

theorem notStop_imp_notEof (lines firstRow : Int) :
    ∀ x : Token, (!stopsB lines firstRow x) = true → (!decide (x.ty = Ttype.teof)) = true := by
  intro x hx
  simp only [Bool.not_eq_true', stopsB, Bool.or_eq_false_iff] at hx
  simp [hx.1]

theorem melt_eof (env : Env) (lines : Int) (s : RState) (ht : s.t.ty = Ttype.teof) :
    melt env lines s = ⟨-1, s, [], [], 0⟩ := by
  rw [melt, if_pos ht]

theorem melt_begun (env : Env) (lines : Int) (s : RState) (ht : ¬ s.t.ty = Ttype.teof)
    (hbg : s.begun = true) :
    melt env lines s
      = ⟨(meltLoop env lines ((s.t.row : Int)) s.t s.stream 0
            (if lines < 0 then 10000 else lines * 10) (-1) s.consumed).cells - 1,
          ⟨(meltLoop env lines ((s.t.row : Int)) s.t s.stream 0
              (if lines < 0 then 10000 else lines * 10) (-1) s.consumed).pending, true,
            (meltLoop env lines ((s.t.row : Int)) s.t s.stream 0
              (if lines < 0 then 10000 else lines * 10) (-1) s.consumed).rest,
            (meltLoop env lines ((s.t.row : Int)) s.t s.stream 0
              (if lines < 0 then 10000 else lines * 10) (-1) s.consumed).consumed⟩,
          CEvent.resize (if lines < 0 then 10000 else lines * 10)
            :: ((meltLoop env lines ((s.t.row : Int)) s.t s.stream 0
                  (if lines < 0 then 10000 else lines * 10) (-1) s.consumed).events
              ++ (if (meltLoop env lines ((s.t.row : Int)) s.t s.stream 0
                      (if lines < 0 then 10000 else lines * 10) (-1) s.consumed).lastRow = -1
                  then [CEvent.resize 0]
                  else if (meltLoop env lines ((s.t.row : Int)) s.t s.stream 0
                          (if lines < 0 then 10000 else lines * 10) (-1) s.consumed).cells
                        < (meltLoop env lines ((s.t.row : Int)) s.t s.stream 0
                          (if lines < 0 then 10000 else lines * 10) (-1) s.consumed).n - 1
                  then [CEvent.resize ((meltLoop env lines ((s.t.row : Int)) s.t s.stream 0
                          (if lines < 0 then 10000 else lines * 10) (-1) s.consumed).cells)]
                  else [])),
          (meltLoop env lines ((s.t.row : Int)) s.t s.stream 0
            (if lines < 0 then 10000 else lines * 10) (-1) s.consumed).rows,
          (meltLoop env lines ((s.t.row : Int)) s.t s.stream 0
            (if lines < 0 then 10000 else lines * 10) (-1) s.consumed).n⟩ := by
  simp [melt, ht, hbg]

theorem melt_first_nil (env : Env) (lines : Int) (s : RState) (ht : ¬ s.t.ty = Ttype.teof)
    (hbg : s.begun = false) (hstr : s.stream = []) :
    melt env lines s
      = ⟨-1, ⟨eofToken, true, [], s.consumed⟩,
          [CEvent.resize (if lines < 0 then 10000 else lines * 10), CEvent.resize 0],
          [], if lines < 0 then 10000 else lines * 10⟩ := by
  simp only [melt, ht, if_neg, hbg, hstr]
  rw [meltLoop_eof env lines 0 eofToken [] 0 (if lines < 0 then 10000 else lines * 10)
    (-1) s.consumed rfl]
  simp

theorem melt_first_cons (env : Env) (lines : Int) (s : RState) (t1 : Token)
    (ts : List Token) (ht : ¬ s.t.ty = Ttype.teof) (hbg : s.begun = false)
    (hstr : s.stream = t1 :: ts) :
    melt env lines s
      = ⟨(meltLoop env lines 0 t1 ts 0
            (if lines < 0 then 10000 else lines * 10) (-1) (s.consumed + 1)).cells - 1,
          ⟨(meltLoop env lines 0 t1 ts 0
              (if lines < 0 then 10000 else lines * 10) (-1) (s.consumed + 1)).pending, true,
            (meltLoop env lines 0 t1 ts 0
              (if lines < 0 then 10000 else lines * 10) (-1) (s.consumed + 1)).rest,
            (meltLoop env lines 0 t1 ts 0
              (if lines < 0 then 10000 else lines * 10) (-1) (s.consumed + 1)).consumed⟩,
          CEvent.resize (if lines < 0 then 10000 else lines * 10)
            :: ((meltLoop env lines 0 t1 ts 0
                  (if lines < 0 then 10000 else lines * 10) (-1) (s.consumed + 1)).events
              ++ (if (meltLoop env lines 0 t1 ts 0
                      (if lines < 0 then 10000 else lines * 10) (-1)
                      (s.consumed + 1)).lastRow = -1
                  then [CEvent.resize 0]
                  else if (meltLoop env lines 0 t1 ts 0
                          (if lines < 0 then 10000 else lines * 10) (-1)
                          (s.consumed + 1)).cells
                        < (meltLoop env lines 0 t1 ts 0
                          (if lines < 0 then 10000 else lines * 10) (-1)
                          (s.consumed + 1)).n - 1
                  then [CEvent.resize ((meltLoop env lines 0 t1 ts 0
                          (if lines < 0 then 10000 else lines * 10) (-1)
                          (s.consumed + 1)).cells)]
                  else [])),
          (meltLoop env lines 0 t1 ts 0
            (if lines < 0 then 10000 else lines * 10) (-1) (s.consumed + 1)).rows,
          (meltLoop env lines 0 t1 ts 0
            (if lines < 0 then 10000 else lines * 10) (-1) (s.consumed + 1)).n⟩ := by
  simp [melt, ht, hbg, hstr]

theorem melt_ret_eq (env : Env) (lines : Int) (s : RState) :
    (melt env lines s).ret = ((melt env lines s).rows.length : Int) - 1 := by
  by_cases ht : s.t.ty = Ttype.teof
  · rw [melt_eof env lines s ht]
    simp
  · cases hbg : s.begun with
    | true =>
      rw [melt_begun env lines s ht hbg]
      have hs := meltLoop_spec env lines ((s.t.row : Int)) s.stream s.t 0
        (if lines < 0 then 10000 else lines * 10) (-1) s.consumed
      simp only []
      rw [hs.2.1, hs.1]
      simp
    | false =>
      cases hstr : s.stream with
      | nil =>
        rw [melt_first_nil env lines s ht hbg hstr]
        simp
      | cons t1 ts =>
        rw [melt_first_cons env lines s t1 ts ht hbg hstr]
        have hs := meltLoop_spec env lines 0 ts t1 0
          (if lines < 0 then 10000 else lines * 10) (-1) (s.consumed + 1)
        simp only []
        rw [hs.2.1, hs.1]
        simp

theorem stopsB_neg (lines firstRow : Int) (hneg : lines < 0) (x : Token) :
    stopsB lines firstRow x = decide (x.ty = Ttype.teof) := by
  have h0 : ¬ (0 ≤ lines) := by omega
  simp [stopsB, decide_eq_false h0]

theorem melt_unbounded_rows (env : Env) (stream : List Token) :
    (melt env (-1) (initState stream)).rows = emitAll env.guess stream := by
  have ht : ¬ (initState stream).t.ty = Ttype.teof := by
    simp [initState, initToken]
  cases stream with
  | nil =>
    rw [melt_first_nil env (-1) (initState []) ht rfl rfl]
    rfl
  | cons t1 ts =>
    rw [melt_first_cons env (-1) (initState (t1 :: ts)) t1 ts ht rfl rfl]
    have hs := meltLoop_spec env (-1) 0 ts t1 0
      (if (-1 : Int) < 0 then 10000 else (-1) * 10) (-1) ((initState (t1 :: ts)).consumed + 1)
    simp only []
    rw [hs.1]
    have hpred : (fun x => !stopsB (-1) 0 x) = (fun x : Token => !decide (x.ty = Ttype.teof)) := by
      funext x
      rw [stopsB_neg (-1) 0 (by omega) x]
    rw [hpred]
    rfl

theorem meltAll_eofPending (env : Env) (k : Int) :
    ∀ (fuel : Nat) (s : RState), s.t.ty = Ttype.teof → (meltAll env k fuel s).1 = [] := by
  intro fuel s ht
  cases fuel with
  | zero => rfl
  | succ m =>
    rw [meltAll, melt_eof env k s ht]
    simp

theorem emitAll_glue (env : Env) (k fr : Int) (l : List Token) :
    emitAll env.guess l
      = (l.takeWhile fun x => !stopsB k fr x).map (mkCell env.guess)
        ++ emitAll env.guess (l.dropWhile fun x => !stopsB k fr x) := by
  rw [emitAll, emitAll,
    takeWhile_glue (fun x : Token => !decide (x.ty = Ttype.teof))
      (fun x => !stopsB k fr x) (notStop_imp_notEof k fr) l,
    List.map_append]

theorem meltAll_begun (env : Env) (k : Int) (hk : 1 ≤ k) :
    ∀ (fuel : Nat) (s : RState), s.begun = true → s.stream.length < fuel →
      (meltAll env k fuel s).1 = emitAll env.guess (s.t :: s.stream) := by
  intro fuel
  induction fuel with
  | zero =>
    intro s hbg hlen
    omega
  | succ m ih =>
    intro s hbg hlen
    by_cases ht : s.t.ty = Ttype.teof
    · rw [meltAll, melt_eof env k s ht]
      have hneg := @List.takeWhile_cons_of_neg Token
        (fun x : Token => !decide (x.ty = Ttype.teof)) s.t s.stream (by simp [ht])
      simp [emitAll, hneg]
    · have hknn : ¬ (k < 0) := by omega
      have hhead : ¬ (0 ≤ k ∧ k ≤ (s.t.row : Int) - (s.t.row : Int)) := by
        intro h
        omega
      have hs := meltLoop_spec env k ((s.t.row : Int)) s.stream s.t 0
        (if k < 0 then 10000 else k * 10) (-1) s.consumed
      rw [meltAll, melt_begun env k s ht hbg]
      simp only []
      rw [hs.1, hs.2.1]
      have hW : ((s.t :: s.stream).takeWhile fun x => !stopsB k ((s.t.row : Int)) x)
          = s.t :: (s.stream.takeWhile fun x => !stopsB k ((s.t.row : Int)) x) := by
        exact @List.takeWhile_cons_of_pos Token (fun x => !stopsB k ((s.t.row : Int)) x)
          s.t s.stream (notStop_app k ((s.t.row : Int)) s.t ht hhead)
      have hD : ((s.t :: s.stream).dropWhile fun x => !stopsB k ((s.t.row : Int)) x)
          = (s.stream.dropWhile fun x => !stopsB k ((s.t.row : Int)) x) := by
        exact @List.dropWhile_cons_of_pos Token (fun x => !stopsB k ((s.t.row : Int)) x)
          s.t s.stream (notStop_app k ((s.t.row : Int)) s.t ht hhead)
      have hret : ¬ ((0 : Int)
          + ((s.t :: s.stream).takeWhile fun x => !stopsB k ((s.t.row : Int)) x).length - 1
            = -1) := by
        rw [hW]
        simp only [List.length_cons]
        push_cast
        omega
      rw [if_neg hret]
      dsimp only
      rw [hs.2.2.1, hs.2.2.2]
      rw [emitAll_glue env k ((s.t.row : Int)) (s.t :: s.stream)]
      rw [hD]
      cases hd : (s.stream.dropWhile fun x => !stopsB k ((s.t.row : Int)) x) with
      | nil =>
        simp only [headOr, List.tail_nil]
        rw [meltAll_eofPending env k m ⟨eofToken, true, [],
          (meltLoop env k ((s.t.row : Int)) s.t s.stream 0
            (if k < 0 then 10000 else k * 10) (-1) s.consumed).consumed⟩ rfl]
        simp [emitAll]
      | cons x d2 =>
        simp only [headOr, List.tail_cons]
        have hsub : (s.stream.dropWhile fun x => !stopsB k ((s.t.row : Int)) x).length
            ≤ s.stream.length := (List.dropWhile_sublist _).length_le
        rw [hd] at hsub
        simp only [List.length_cons] at hsub
        have hih := ih ⟨x, true, d2,
          (meltLoop env k ((s.t.row : Int)) s.t s.stream 0
            (if k < 0 then 10000 else k * 10) (-1) s.consumed).consumed⟩ rfl
          (by simp only []; omega)
        dsimp only at hih
        rw [hih]

theorem meltAll_init (env : Env) (k : Int) (stream : List Token) (hk : 1 ≤ k)
    (hhead : ∀ t, stream.head? = some t → (t.row : Int) < k) :
    ∀ (fuel : Nat), stream.length + 2 ≤ fuel →
      (meltAll env k fuel (initState stream)).1 = emitAll env.guess stream := by
  intro fuel hf
  cases fuel with
  | zero => omega
  | succ m =>
    cases hstr : stream with
    | nil =>
      rw [meltAll, melt_first_nil env k (initState []) (by simp [initState, initToken]) rfl rfl]
      simp [emitAll]
    | cons t1 ts =>
      have ht : ¬ (initState (t1 :: ts)).t.ty = Ttype.teof := by
        simp [initState, initToken]
      by_cases ht1 : t1.ty = Ttype.teof
      · rw [meltAll, melt_first_cons env k (initState (t1 :: ts)) t1 ts ht rfl rfl]
        have hs := meltLoop_spec env k 0 ts t1 0
          (if k < 0 then 10000 else k * 10) (-1) ((initState (t1 :: ts)).consumed + 1)
        have hW : ((t1 :: ts).takeWhile fun x => !stopsB k 0 x) = [] :=
          @List.takeWhile_cons_of_neg Token (fun x => !stopsB k 0 x) t1 ts
            (by simp [stopsB_true_of_eof k 0 t1 ht1])
        dsimp only
        rw [hs.2.1, hs.1, hW]
        simp [emitAll, @List.takeWhile_cons_of_neg Token
          (fun x : Token => !decide (x.ty = Ttype.teof)) t1 ts (by simp [ht1])]
      · have hb1 : ¬ (0 ≤ k ∧ k ≤ (t1.row : Int) - 0) := by
          have := hhead t1 (by rw [hstr]; rfl)
          omega
        have hs := meltLoop_spec env k 0 ts t1 0
          (if k < 0 then 10000 else k * 10) (-1) ((initState (t1 :: ts)).consumed + 1)
        rw [meltAll, melt_first_cons env k (initState (t1 :: ts)) t1 ts ht rfl rfl]
        dsimp only
        rw [hs.1, hs.2.1]
        have hW : ((t1 :: ts).takeWhile fun x => !stopsB k 0 x)
            = t1 :: (ts.takeWhile fun x => !stopsB k 0 x) :=
          @List.takeWhile_cons_of_pos Token (fun x => !stopsB k 0 x) t1 ts
            (notStop_app k 0 t1 ht1 hb1)
        have hD : ((t1 :: ts).dropWhile fun x => !stopsB k 0 x)
            = (ts.dropWhile fun x => !stopsB k 0 x) :=
          @List.dropWhile_cons_of_pos Token (fun x => !stopsB k 0 x) t1 ts
            (notStop_app k 0 t1 ht1 hb1)
        have hret : ¬ ((0 : Int)
            + ((t1 :: ts).takeWhile fun x => !stopsB k 0 x).length - 1 = -1) := by
          rw [hW]
          simp only [List.length_cons]
          push_cast
          omega
        rw [if_neg hret]
        dsimp only
        rw [hs.2.2.1, hs.2.2.2]
        rw [emitAll_glue env k 0 (t1 :: ts)]
        rw [hD]
        cases hd : (ts.dropWhile fun x => !stopsB k 0 x) with
        | nil =>
          simp only [headOr, List.tail_nil]
          rw [meltAll_eofPending env k m ⟨eofToken, true, [],
            (meltLoop env k 0 t1 ts 0
              (if k < 0 then 10000 else k * 10) (-1)
              ((initState (t1 :: ts)).consumed + 1)).consumed⟩ rfl]
          simp [emitAll]
        | cons x d2 =>
          simp only [headOr, List.tail_cons]
          have hsub : (ts.dropWhile fun x => !stopsB k 0 x).length
              ≤ ts.length := (List.dropWhile_sublist _).length_le
          rw [hd] at hsub
          simp only [List.length_cons] at hsub
          have hlen2 : ts.length + 1 + 2 ≤ m + 1 := by
            rw [hstr] at hf
            simpa using hf
          have hih := meltAll_begun env k hk m ⟨x, true, d2,
            (meltLoop env k 0 t1 ts 0
              (if k < 0 then 10000 else k * 10) (-1)
              ((initState (t1 :: ts)).consumed + 1)).consumed⟩ rfl
            (by simp only []; omega)
          dsimp only at hih
          rw [hih]

/-- Replaying the post-loop finalization of Reader.cpp lines 154-158 over
the trace: starting from any capacity, a melt run's full event trace lands
on capacity 0 when no row was written, on `cells` when `cells < n - 1`,
and is left at the loop's final `n` otherwise. -/
theorem cap_fin (rr : LoopOut) (c0 n0 : Int)
    (hcap : capAfter n0 rr.events = rr.n)
    (hlr_nil : rr.rows = [] → rr.lastRow = -1)
    (hlr_pos : ¬ rr.rows = [] → 0 ≤ rr.lastRow)
    (hlen : (rr.rows.length : Int) = rr.cells)
    (hcn : rr.cells ≤ rr.n) :
    capAfter c0 (CEvent.resize n0
        :: (rr.events ++ (if rr.lastRow = -1 then [CEvent.resize 0]
              else if rr.cells < rr.n - 1 then [CEvent.resize rr.cells] else [])))
      = (if rr.rows = [] then 0
         else if (rr.rows.length : Int) = rr.n - 1 then rr.n
         else (rr.rows.length : Int)) := by
  rw [show capAfter c0 (CEvent.resize n0 :: (rr.events ++ _)) = capAfter n0 (rr.events ++ _)
      from rfl,
    capAfter_append, hcap]
  by_cases hr : rr.rows = []
  · rw [if_pos (hlr_nil hr), if_pos hr]
    rfl
  · have hlr := hlr_pos hr
    have hne : ¬ rr.lastRow = -1 := by omega
    rw [if_neg hne, if_neg hr]
    by_cases hc : rr.cells < rr.n - 1
    · rw [if_pos hc]
      have : ¬ ((rr.rows.length : Int) = rr.n - 1) := by omega
      rw [if_neg this]
      rw [show capAfter rr.n [CEvent.resize rr.cells] = rr.cells from rfl]
      omega
    · rw [if_neg hc]
      rw [show capAfter rr.n ([] : List CEvent) = rr.n from rfl]
      by_cases he : (rr.rows.length : Int) = rr.n - 1
      · rw [if_pos he]
      · rw [if_neg he]
        omega

theorem meltLoop_len_cells (env : Env) (lines firstRow : Int) (t : Token)
    (stream : List Token) (n : Int) (consumed : Nat) :
    ((meltLoop env lines firstRow t stream 0 n (-1) consumed).rows.length : Int)
      = (meltLoop env lines firstRow t stream 0 n (-1) consumed).cells := by
  have hs := meltLoop_spec env lines firstRow stream t 0 n (-1) consumed
  rw [hs.1, hs.2.1]
  simp

theorem n0_nonneg (lines : Int) : 0 ≤ (if lines < 0 then 10000 else lines * 10) := by
  by_cases h : lines < 0
  · rw [if_pos h]; omega
  · rw [if_neg h]
    push_neg at h
    omega

/-- Every output row of a melt invocation is `mkCell` of some source
token. -/
theorem melt_rows_mkCell (env : Env) (lines : Int) (s : RState) :
    ∀ cell ∈ (melt env lines s).rows, ∃ tok : Token, cell = mkCell env.guess tok := by
  intro cell hmem
  by_cases ht : s.t.ty = Ttype.teof
  · rw [melt_eof env lines s ht] at hmem
    simp at hmem
  · cases hbg : s.begun with
    | true =>
      rw [melt_begun env lines s ht hbg] at hmem
      have hs := meltLoop_spec env lines ((s.t.row : Int)) s.stream s.t 0
        (if lines < 0 then 10000 else lines * 10) (-1) s.consumed
      rw [show (⟨_, _, _, (meltLoop env lines ((s.t.row : Int)) s.t s.stream 0
          (if lines < 0 then 10000 else lines * 10) (-1) s.consumed).rows, _⟩ : MeltOut).rows
          = (meltLoop env lines ((s.t.row : Int)) s.t s.stream 0
            (if lines < 0 then 10000 else lines * 10) (-1) s.consumed).rows from rfl,
        hs.1] at hmem
      rcases List.mem_map.mp hmem with ⟨tok, _, htok⟩
      exact ⟨tok, htok.symm⟩
    | false =>
      cases hstr : s.stream with
      | nil =>
        rw [melt_first_nil env lines s ht hbg hstr] at hmem
        simp at hmem
      | cons t1 ts =>
        rw [melt_first_cons env lines s t1 ts ht hbg hstr] at hmem
        have hs := meltLoop_spec env lines 0 ts t1 0
          (if lines < 0 then 10000 else lines * 10) (-1) (s.consumed + 1)
        rw [show (⟨_, _, _, (meltLoop env lines 0 t1 ts 0
            (if lines < 0 then 10000 else lines * 10) (-1) (s.consumed + 1)).rows, _⟩
            : MeltOut).rows
            = (meltLoop env lines 0 t1 ts 0
              (if lines < 0 then 10000 else lines * 10) (-1) (s.consumed + 1)).rows from rfl,
          hs.1] at hmem
        rcases List.mem_map.mp hmem with ⟨tok, _, htok⟩
        exact ⟨tok, htok.symm⟩

theorem fin_resizeOnly (P Q : Prop) [Decidable P] [Decidable Q] (a b : Int) :
    ∀ ev ∈ (if P then [CEvent.resize a] else if Q then [CEvent.resize b] else []),
      ∃ z, ev = CEvent.resize z := by
  intro ev hmem
  by_cases hP : P
  · rw [if_pos hP] at hmem
    simp at hmem
    exact ⟨a, hmem⟩
  · rw [if_neg hP] at hmem
    by_cases hQ : Q
    · rw [if_pos hQ] at hmem
      simp at hmem
      exact ⟨b, hmem⟩
    · rw [if_neg hQ] at hmem
      simp at hmem

theorem melt_grow (env : Env) (lines : Int) (s : RState) (hs : SInv s) :
    (∀ c2 m k, CEvent.grow c2 m k ∈ (melt env lines s).events →
        1 ≤ m ∧ k = newCap c2 (env.prog m))
      ∧ SInv (melt env lines s).state := by
  by_cases ht : s.t.ty = Ttype.teof
  · rw [melt_eof env lines s ht]
    exact ⟨by intro c2 m k hmem; simp at hmem, hs⟩
  · cases hbg : s.begun with
    | true =>
      have hcon : 1 ≤ s.consumed := by
        rcases hs hbg with h | h
        · exact h
        · exact absurd h ht
      have htr := meltLoop_trace env lines ((s.t.row : Int)) s.stream s.t 0
        (if lines < 0 then 10000 else lines * 10) (-1) s.consumed
      rw [melt_begun env lines s ht hbg]
      constructor
      · intro c2 m k hmem
        simp only [List.mem_cons, List.mem_append] at hmem
        rcases hmem with hmem | hmem | hmem
        · exact absurd hmem (by simp)
        · have := htr.2.2.1 c2 m k hmem
          exact ⟨by omega, this.2⟩
        · rcases fin_resizeOnly _ _ 0 _ _ hmem with ⟨z, hz⟩
          exact absurd hz (by simp)
      · intro _
        left
        have := htr.2.1
        simp only []
        omega
    | false =>
      cases hstr : s.stream with
      | nil =>
        rw [melt_first_nil env lines s ht hbg hstr]
        constructor
        · intro c2 m k hmem
          simp at hmem
        · intro _
          right
          rfl
      | cons t1 ts =>
        have htr := meltLoop_trace env lines 0 ts t1 0
          (if lines < 0 then 10000 else lines * 10) (-1) (s.consumed + 1)
        rw [melt_first_cons env lines s t1 ts ht hbg hstr]
        constructor
        · intro c2 m k hmem
          simp only [List.mem_cons, List.mem_append] at hmem
          rcases hmem with hmem | hmem | hmem
          · exact absurd hmem (by simp)
          · have := htr.2.2.1 c2 m k hmem
            exact ⟨by omega, this.2⟩
          · rcases fin_resizeOnly _ _ 0 _ _ hmem with ⟨z, hz⟩
            exact absurd hz (by simp)
        · intro _
          left
          have := htr.2.1
          simp only []
          omega

theorem meltAll_grow (env : Env) (lines : Int) :
    ∀ (fuel : Nat) (s : RState), SInv s →
      ∀ c2 m k, CEvent.grow c2 m k ∈ (meltAll env lines fuel s).2 →
        1 ≤ m ∧ k = newCap c2 (env.prog m) := by
  intro fuel
  induction fuel with
  | zero =>
    intro s _ c2 m k hmem
    simp [meltAll] at hmem
  | succ f ih =>
    intro s hs c2 m k hmem
    rw [meltAll] at hmem
    by_cases hret : (melt env lines s).ret = -1
    · rw [if_pos hret] at hmem
      exact (melt_grow env lines s hs).1 c2 m k hmem
    · rw [if_neg hret] at hmem
      simp only [List.mem_append] at hmem
      rcases hmem with hmem | hmem
      · exact (melt_grow env lines s hs).1 c2 m k hmem
      · exact ih (melt env lines s).state (melt_grow env lines s hs).2 c2 m k hmem

/-- C1, as stated, is false on the code: over the token stream `str1`,
whose single token carries row 1, chunked melting with `k = 1` invoked
until the end-of-input signal yields no rows (the first invocation takes
`first_row = 0`, hits the chunk-boundary check immediately, writes nothing
and returns -1, stopping the driver), while the unbounded melt yields that
token's row. -/
theorem c1_counterexample :
    ¬ ((meltAll env0 1 3 (initState str1)).1 = (melt env0 (-1) (initState str1)).rows) := by
  decide

/-- C1 (amended): for every token stream whose first token has row < k
(in particular row 0, as a tokenizer numbering rows from the start of
tokenization produces), melting in bounded chunks with `maxLines = k ≥ 1`
repeatedly until the end-of-input signal and concatenating the rows yields
exactly the rows of a single unbounded melt over the same stream — no row
lost, none duplicated. -/
theorem c1_chunked_concat_eq_unbounded (env : Env) (k : Int) (stream : List Token)
    (fuel : Nat) (hk : 1 ≤ k)
    (hhead : ∀ t, stream.head? = some t → (t.row : Int) < k)
    (hf : stream.length + 2 ≤ fuel) :
    (meltAll env k fuel (initState stream)).1 = (melt env (-1) (initState stream)).rows := by
  rw [melt_unbounded_rows]
  exact meltAll_init env k stream hk hhead fuel hf

/-- Witness for C1's amended theorem at the stream `str2` with `k = 1`. -/
theorem c1_witness :
    (meltAll env0 1 4 (initState str2)).1 = (melt env0 (-1) (initState str2)).rows :=
  c1_chunked_concat_eq_unbounded env0 1 str2 4 (by decide)
    (by
      intro t h
      rw [show str2.head? = some (tokM 0 0) from rfl] at h
      injection h with h2
      rw [← h2]
      decide)
    (by decide)

/-- C2, as stated, is false on the code: an unbounded melt over a
one-token stream writes one cell but returns 0 (line 160 returns
`cells - 1`), not 1. -/
theorem c2_counterexample :
    (melt env0 (-1) (initState [tokM 0 0])).rows.length = 1
      ∧ (melt env0 (-1) (initState [tokM 0 0])).ret = 0
      ∧ ¬ ((melt env0 (-1) (initState [tokM 0 0])).ret
            = ((melt env0 (-1) (initState [tokM 0 0])).rows.length : Int)) :=
  ⟨by decide, by decide, by decide⟩

/-- C2 (amended): every melt invocation returns the number of cells
written in that invocation minus one; consequently the end-of-input value
-1 is also returned whenever zero cells were written, not only when the
stream was already exhausted. -/
theorem c2_return_value_off_by_one (env : Env) (lines : Int) (s : RState) :
    (melt env lines s).ret = ((melt env lines s).rows.length : Int) - 1 :=
  melt_ret_eq env lines s

/-- C4: in a bounded melt invocation with `maxLines = k ≥ 0`, when the
current token's row minus the chunk's `first_row` baseline reaches `k`,
the loop stops with no collector event and no row written, the token stays
pending with the stream untouched, and the next invocation (with any
bound that admits a write, i.e. unbounded or ≥ 1) writes exactly that
token first. -/
theorem c4_boundary_stop_resume (env : Env) (k firstRow : Int) (t : Token)
    (stream : List Token) (cells n lastRow : Int) (consumed : Nat) (k2 : Int)
    (hk : 0 ≤ k) (ht : ¬ t.ty = Ttype.teof) (hb : k ≤ (t.row : Int) - firstRow)
    (hk2 : k2 < 0 ∨ 1 ≤ k2) :
    meltLoop env k firstRow t stream cells n lastRow consumed
        = ⟨[], [], cells, n, lastRow, t, stream, consumed⟩
      ∧ (melt env k2 ⟨t, true, stream, consumed⟩).rows.head?
          = some (mkCell env.guess t) := by
  constructor
  · exact meltLoop_break env k firstRow t stream cells n lastRow consumed ht ⟨hk, hb⟩
  · rw [melt_begun env k2 ⟨t, true, stream, consumed⟩ ht rfl]
    dsimp only
    have hs := meltLoop_spec env k2 ((t.row : Int)) stream t 0
      (if k2 < 0 then 10000 else k2 * 10) (-1) consumed
    rw [hs.1]
    have hb2 : ¬ (0 ≤ k2 ∧ k2 ≤ (t.row : Int) - (t.row : Int)) := by
      rcases hk2 with h | h
      · intro hc; omega
      · intro hc; omega
    rw [@List.takeWhile_cons_of_pos Token (fun x => !stopsB k2 ((t.row : Int)) x) t stream
      (notStop_app k2 ((t.row : Int)) t ht hb2)]
    simp

/-- Witness for C4 at a concrete boundary state. -/
theorem c4_witness :
    meltLoop env0 1 0 (tokM 1 0) [] 0 10 (-1) 1 = ⟨[], [], 0, 10, -1, tokM 1 0, [], 1⟩
      ∧ (melt env0 1 ⟨tokM 1 0, true, [], 1⟩).rows.head?
          = some (mkCell env0.guess (tokM 1 0)) :=
  c4_boundary_stop_resume env0 1 0 (tokM 1 0) [] 0 10 (-1) 1 1
    (by decide) (by decide) (by decide) (Or.inr (by decide))

/-- C9, as stated, is false in its distinctness part: the very first melt
over an empty stream is a validly completed zero-row invocation (the
pending token is not the END sentinel at entry), yet it returns -1, the
same value as the end-of-input signal. -/
theorem c9_counterexample :
    (melt env0 (-1) (initState [])).ret = -1
      ∧ ¬ (initState ([] : List Token)).t.ty = Ttype.teof
      ∧ (melt env0 (-1) (initState [])).rows = [] :=
  ⟨by decide, by decide, by decide⟩

/-- C9 (amended): if the pending token is already the END sentinel, melt
returns -1 without touching any collector (empty event trace, no rows,
state unchanged); the value -1 is however not distinct from a valid
zero-row completion — every invocation that writes zero rows also
returns -1. -/
theorem c9_eof_early_exit (env : Env) (lines : Int) (s : RState)
    (ht : s.t.ty = Ttype.teof) :
    melt env lines s = ⟨-1, s, [], [], 0⟩
      ∧ ∀ (env2 : Env) (lines2 : Int) (s2 : RState),
          (melt env2 lines2 s2).rows = [] → (melt env2 lines2 s2).ret = -1 := by
  refine ⟨melt_eof env lines s ht, ?_⟩
  intro env2 lines2 s2 h
  rw [melt_ret_eq env2 lines2 s2, h]
  simp

/-- Witness for C9's amended theorem at a state whose pending token is the
END sentinel. -/
theorem c9_witness :
    melt env0 (-1) ⟨eofToken, true, [], 1⟩ = ⟨-1, ⟨eofToken, true, [], 1⟩, [], [], 0⟩
      ∧ ∀ (env2 : Env) (lines2 : Int) (s2 : RState),
          (melt env2 lines2 s2).rows = [] → (melt env2 lines2 s2).ret = -1 :=
  c9_eof_early_exit env0 (-1) ⟨eofToken, true, [], 1⟩ (by decide)

theorem guess0_spec : GuessSpec env0.guess := by
  intro str
  exact ⟨by simp [env0, guess0], by simp [env0, guess0]⟩

theorem env0_contract : ∀ m : Nat, 0 < env0.prog m ∧ env0.prog m ≤ 1 := by
  intro m
  constructor
  · simp [env0]
  · simp [env0]

theorem wIB_fin (P Q : Prop) [Decidable P] [Decidable Q] (a b c : Int) :
    writesInBoundsB c
      (if P then [CEvent.resize a] else if Q then [CEvent.resize b] else []) = true := by
  by_cases hP : P
  · rw [if_pos hP]; rfl
  · rw [if_neg hP]
    by_cases hQ : Q
    · rw [if_pos hQ]; rfl
    · rw [if_neg hQ]; rfl

/-- C3, as stated, is false on the code: melting `str9` with `maxLines = 1`
writes 9 cells, but `cells < n - 1` (9 < 9) fails at line 156, so the
final shrink is skipped and every collector keeps capacity 10. -/
theorem c3_counterexample :
    capAfter 0 (melt env0 1 (initState str9)).events = 10
      ∧ (melt env0 1 (initState str9)).rows.length = 9
      ∧ ¬ (capAfter 0 (melt env0 1 (initState str9)).events
            = ((melt env0 1 (initState str9)).rows.length : Int)) :=
  ⟨by decide, by decide, by decide⟩

/-- C3 (amended): after the post-loop finalization of an invocation that
reaches the loop, under the tokenizer progress contract the collector
capacity is 0 when no cell was written, stays at the pre-trim capacity
when the number of cells written is exactly that capacity minus one (one
slot of slack remains), and equals the number of cells written otherwise. -/
theorem c3_final_capacity (env : Env) (lines : Int) (s : RState) (c0 : Int)
    (ht : ¬ s.t.ty = Ttype.teof)
    (hp : ∀ m : Nat, 0 < env.prog m ∧ env.prog m ≤ 1) :
    capAfter c0 (melt env lines s).events
      = (if (melt env lines s).rows = [] then 0
         else if ((melt env lines s).rows.length : Int) = (melt env lines s).loopN - 1
         then (melt env lines s).loopN
         else ((melt env lines s).rows.length : Int)) := by
  cases hbg : s.begun with
  | true =>
    rw [melt_begun env lines s ht hbg]
    dsimp only
    have htr := meltLoop_trace env lines ((s.t.row : Int)) s.stream s.t 0
      (if lines < 0 then 10000 else lines * 10) (-1) s.consumed
    exact cap_fin _ c0 _ htr.1 htr.2.2.2.1 htr.2.2.2.2
      (meltLoop_len_cells env lines ((s.t.row : Int)) s.t s.stream
        (if lines < 0 then 10000 else lines * 10) s.consumed)
      ((meltLoop_inv env lines ((s.t.row : Int)) s.stream hp s.t 0
        (if lines < 0 then 10000 else lines * 10) (-1) s.consumed
        (by omega) (n0_nonneg lines)).2.1)
  | false =>
    cases hstr : s.stream with
    | nil =>
      rw [melt_first_nil env lines s ht hbg hstr]
      simp [capAfter]
    | cons t1 ts =>
      rw [melt_first_cons env lines s t1 ts ht hbg hstr]
      dsimp only
      have htr := meltLoop_trace env lines 0 ts t1 0
        (if lines < 0 then 10000 else lines * 10) (-1) (s.consumed + 1)
      exact cap_fin _ c0 _ htr.1 htr.2.2.2.1 htr.2.2.2.2
        (meltLoop_len_cells env lines 0 t1 ts
          (if lines < 0 then 10000 else lines * 10) (s.consumed + 1))
        ((meltLoop_inv env lines 0 ts hp t1 0
          (if lines < 0 then 10000 else lines * 10) (-1) (s.consumed + 1)
          (by omega) (n0_nonneg lines)).2.1)

/-- Witness for C3's amended theorem on a one-token unbounded melt. -/
theorem c3_witness :
    capAfter 0 (melt env0 (-1) (initState [tokM 0 0])).events
      = (if (melt env0 (-1) (initState [tokM 0 0])).rows = [] then 0
         else if ((melt env0 (-1) (initState [tokM 0 0])).rows.length : Int)
              = (melt env0 (-1) (initState [tokM 0 0])).loopN - 1
         then (melt env0 (-1) (initState [tokM 0 0])).loopN
         else ((melt env0 (-1) (initState [tokM 0 0])).rows.length : Int)) :=
  c3_final_capacity env0 (-1) (initState [tokM 0 0]) 0 (by decide) env0_contract

/-- C5: every MISSING token melts to data_type "missing", every EMPTY
token to "empty", and a STRING token's data_type is the type-guess on its
text, which (per the modelled guess contract) is never "missing" or
"empty". -/
theorem c5_data_type_dispatch (env : Env) (lines : Int) (s : RState)
    (hg : GuessSpec env.guess) :
    ∀ cell ∈ (melt env lines s).rows,
      (cell.value.ty = Ttype.tmissing → cell.dataType = "missing")
        ∧ (cell.value.ty = Ttype.tempty → cell.dataType = "empty")
        ∧ (∀ str, cell.value.ty = Ttype.tstring str →
            cell.dataType = env.guess str
              ∧ ¬ cell.dataType = "missing" ∧ ¬ cell.dataType = "empty") := by
  intro cell hmem
  rcases melt_rows_mkCell env lines s cell hmem with ⟨tok, rfl⟩
  refine ⟨?_, ?_, ?_⟩
  · intro h
    simp only [mkCell] at h ⊢
    rw [h]
  · intro h
    simp only [mkCell] at h ⊢
    rw [h]
  · intro str h
    simp only [mkCell] at h ⊢
    rw [h]
    exact ⟨rfl, (hg str).1, (hg str).2⟩

/-- Witness for C5 at the concrete output row `cell5`. -/
theorem c5_witness :
    (cell5.value.ty = Ttype.tmissing → cell5.dataType = "missing")
      ∧ (cell5.value.ty = Ttype.tempty → cell5.dataType = "empty")
      ∧ (∀ str, cell5.value.ty = Ttype.tstring str →
          cell5.dataType = env0.guess str
            ∧ ¬ cell5.dataType = "missing" ∧ ¬ cell5.dataType = "empty") :=
  c5_data_type_dispatch env0 (-1) (initState [tokM 0 0]) guess0_spec cell5 (by decide)

/-- C6: every output row carries exactly its source token's zero-based row
plus 1 and zero-based column plus 1, hence both are at least 1 (the token
itself is what collector 3 stored as the row's value). -/
theorem c6_one_based_row_col (env : Env) (lines : Int) (s : RState) :
    ∀ cell ∈ (melt env lines s).rows,
      cell.rowOut = cell.value.row + 1 ∧ cell.colOut = cell.value.col + 1
        ∧ 1 ≤ cell.rowOut ∧ 1 ≤ cell.colOut := by
  intro cell hmem
  rcases melt_rows_mkCell env lines s cell hmem with ⟨tok, rfl⟩
  refine ⟨rfl, rfl, ?_, ?_⟩
  · simp only [mkCell]
    omega
  · simp only [mkCell]
    omega

/-- Witness for C6 at the concrete output row `cell5`. -/
theorem c6_witness :
    cell5.rowOut = cell5.value.row + 1 ∧ cell5.colOut = cell5.value.col + 1
      ∧ 1 ≤ cell5.rowOut ∧ 1 ≤ cell5.colOut :=
  c6_one_based_row_col env0 (-1) (initState [tokM 0 0]) cell5 (by decide)

/-- C7: in any loop run under the tokenizer progress contract and a
well-formed entry state (`0 ≤ cells ≤ n`), every capacity change in the
mid-loop trace is monotone (never shrinks), and every mid-loop
recomputation resizes to exactly `cells / progress * 1.1` truncated
toward zero. -/
theorem c7_growth_monotone (env : Env) (lines firstRow : Int) (t : Token)
    (stream : List Token) (cells n lastRow : Int) (consumed : Nat)
    (hp : ∀ m : Nat, 0 < env.prog m ∧ env.prog m ≤ 1)
    (h0 : 0 ≤ cells) (hcn : cells ≤ n) :
    capsMonoB n (meltLoop env lines firstRow t stream cells n lastRow consumed).events = true
      ∧ (∀ c2 m k, CEvent.grow c2 m k
            ∈ (meltLoop env lines firstRow t stream cells n lastRow consumed).events →
          k = newCap c2 (env.prog m)
            ∧ (0 ≤ c2 → k = truncQ (((c2 : ℚ) / env.prog m) * (11 / 10)))) := by
  constructor
  · exact (meltLoop_inv env lines firstRow stream hp t cells n lastRow consumed
      h0 hcn).2.2.2.1
  · intro c2 m k hmem
    have hg := (meltLoop_trace env lines firstRow stream t cells n lastRow
      consumed).2.2.1 c2 m k hmem
    refine ⟨hg.2, fun hc2 => ?_⟩
    rw [hg.2]
    exact newCap_spec c2 (env.prog m) hc2 (hp m).1

/-- Witness for C7 at a concrete loop state. -/
theorem c7_witness :
    capsMonoB 10 (meltLoop env0 1 0 (tokM 0 0) [] 0 10 (-1) 1).events = true
      ∧ (∀ c2 m k, CEvent.grow c2 m k
            ∈ (meltLoop env0 1 0 (tokM 0 0) [] 0 10 (-1) 1).events →
          k = newCap c2 (env0.prog m)
            ∧ (0 ≤ c2 → k = truncQ (((c2 : ℚ) / env0.prog m) * (11 / 10)))) :=
  c7_growth_monotone env0 1 0 (tokM 0 0) [] 0 10 (-1) 1 env0_contract
    (by decide) (by decide)

/-- C8: under the tokenizer progress contract, every `setValue` write in a
melt invocation's trace lands at a nonnegative index strictly below the
collector capacity in force at that moment — the initial resize and the
mid-loop growth checks together prevent any out-of-range write. -/
theorem c8_grow_before_write (env : Env) (lines : Int) (s : RState) (c0 : Int)
    (hp : ∀ m : Nat, 0 < env.prog m ∧ env.prog m ≤ 1) :
    writesInBoundsB c0 (melt env lines s).events = true := by
  by_cases ht : s.t.ty = Ttype.teof
  · rw [melt_eof env lines s ht]
    rfl
  · cases hbg : s.begun with
    | true =>
      rw [melt_begun env lines s ht hbg]
      dsimp only
      rw [show ∀ (X : List CEvent) (k : Int), writesInBoundsB c0 (CEvent.resize k :: X)
          = writesInBoundsB k X from fun X k => rfl]
      rw [writesInBoundsB_append]
      rw [(meltLoop_inv env lines ((s.t.row : Int)) s.stream hp s.t 0
        (if lines < 0 then 10000 else lines * 10) (-1) s.consumed
        (by omega) (n0_nonneg lines)).2.2.2.2]
      rw [wIB_fin _ _ 0 _ _]
      rfl
    | false =>
      cases hstr : s.stream with
      | nil =>
        rw [melt_first_nil env lines s ht hbg hstr]
        rfl
      | cons t1 ts =>
        rw [melt_first_cons env lines s t1 ts ht hbg hstr]
        dsimp only
        rw [show ∀ (X : List CEvent) (k : Int), writesInBoundsB c0 (CEvent.resize k :: X)
            = writesInBoundsB k X from fun X k => rfl]
        rw [writesInBoundsB_append]
        rw [(meltLoop_inv env lines 0 ts hp t1 0
          (if lines < 0 then 10000 else lines * 10) (-1) (s.consumed + 1)
          (by omega) (n0_nonneg lines)).2.2.2.2]
        rw [wIB_fin _ _ 0 _ _]
        rfl

/-- Witness for C8 on a one-token unbounded melt. -/
theorem c8_witness :
    writesInBoundsB 0 (melt env0 (-1) (initState [tokM 0 0])).events = true :=
  c8_grow_before_write env0 (-1) (initState [tokM 0 0]) 0 env0_contract

/-- C10: in every reachable melt run from a fresh Reader, each mid-loop
capacity recomputation fires only after at least one token has been
consumed, its recorded consumed count determines the queried progress
fraction, and under the modelled tokenizer contract that fraction is
strictly positive — the line-117 division is never by zero. -/
theorem c10_growth_progress_positive (env : Env) (lines : Int) (stream : List Token)
    (fuel : Nat) :
    ∀ ev ∈ (meltAll env lines fuel (initState stream)).2,
      ∀ c2 m k, ev = CEvent.grow c2 m k →
        1 ≤ m ∧ k = newCap c2 (env.prog m)
          ∧ (ProgressPositive env.prog → 0 < env.prog m) := by
  intro ev hmem c2 m k hev
  subst hev
  have hg := meltAll_grow env lines fuel (initState stream)
    (by intro h; simp [initState] at h) c2 m k hmem
  exact ⟨hg.1, hg.2, fun hpp => hpp m hg.1⟩

/-- Witness for C10 at the growth event fired while melting `str11` with
`maxLines = 1`. -/
theorem c10_witness :
    1 ≤ 10 ∧ (11 : Int) = newCap 10 (env0.prog 10)
      ∧ (ProgressPositive env0.prog → 0 < env0.prog 10) :=
  c10_growth_progress_positive env0 1 str11 3 (CEvent.grow 10 10 11) (by decide)
    10 10 11 rfl
